import Mathlib

/-!
Verification of the deterministic series-resolution pipeline of
`mcp_bcrp/search_engine.py` (class `SearchEngine`): canonical text
normalization, attribute extraction, hard filtering, fuzzy scoring and the
resolution policy of `SearchEngine.solve`.

Strings are modelled as Lean `String` / `List Char`.  The Unicode steps of
`_normalize` (Python `str.lower`, `unicodedata.normalize('NFKD', ...)`
followed by `encode('ascii','ignore')`) are modelled character by character
for the ASCII range plus the Latin accented letters that occur in the
Spanish-language corpus; any other non-ASCII character is dropped, which is
what `encode('ascii','ignore')` does to characters without an ASCII
decomposition.  The similarity score of `rapidfuzz.fuzz.token_sort_ratio`
(normalized Indel similarity of the token-sorted strings, a value in
[0,100]) is modelled exactly over `ℚ` via the longest-common-subsequence
characterisation of the Indel distance; the module-level `fuzz` value of
`search_engine.py` (which is `None` when the import fails) is modelled as an
`Option`-valued scoring function passed to `solve`.
-/

set_option maxRecDepth 100000
set_option maxHeartbeats 1000000

namespace McpBcrp

/-- Python `\s` on ASCII text: the whitespace characters recognised by
`re` and by `str.split()` once the text has been ASCII-folded. -/
def isSpaceChar (c : Char) : Bool :=
  c = ' ' || c = '\t' || c = '\n' || c = '\r' || c = '\x0b' || c = '\x0c'

/-- Python `\w` on ASCII text: letters, digits and underscore. -/
def isWordChar (c : Char) : Bool :=
  c.isAlphanum || c = '_'

/-- Lowercasing table for `str.lower()`: ASCII `A`-`Z` plus the Latin
accented capitals found in the catalog's Spanish text. -/
def lowerTable : List (Char × Char) :=
  [('A','a'),('B','b'),('C','c'),('D','d'),('E','e'),('F','f'),('G','g'),
   ('H','h'),('I','i'),('J','j'),('K','k'),('L','l'),('M','m'),('N','n'),
   ('O','o'),('P','p'),('Q','q'),('R','r'),('S','s'),('T','t'),('U','u'),
   ('V','v'),('W','w'),('X','x'),('Y','y'),('Z','z'),
   ('Á','á'),('É','é'),('Í','í'),('Ó','ó'),('Ú','ú'),('Ñ','ñ'),('Ü','ü'),
   ('À','à'),('È','è'),('Ì','ì'),('Ò','ò'),('Ù','ù'),('Â','â'),('Ê','ê'),
   ('Î','î'),('Ô','ô'),('Û','û'),('Ä','ä'),('Ë','ë'),('Ï','ï'),('Ö','ö'),
   ('Ç','ç')]

/-- Association lookup used for the character tables. -/
def tableLookup (c : Char) : List (Char × Char) → Option Char
  | [] => none
  | p :: ps => if c = p.1 then some p.2 else tableLookup c ps

/-- Model of Python `str.lower` on one character. -/
def pyLower (c : Char) : Char :=
  (tableLookup c lowerTable).getD c

/-- Decomposition table for lowercase accented Latin letters:
`unicodedata.normalize('NFKD', c).encode('ascii','ignore')`. -/
def accentTable : List (Char × Char) :=
  [('á','a'),('à','a'),('â','a'),('ä','a'),
   ('é','e'),('è','e'),('ê','e'),('ë','e'),
   ('í','i'),('ì','i'),('î','i'),('ï','i'),
   ('ó','o'),('ò','o'),('ô','o'),('ö','o'),
   ('ú','u'),('ù','u'),('û','u'),('ü','u'),
   ('ñ','n'),('ç','c')]

/-- Model of NFKD decomposition followed by `encode('ascii','ignore')` on
one character: ASCII characters pass through, accented Latin lowercase
letters fold to their base letter, every other non-ASCII character is
dropped. -/
def nfkdAsciiFold (c : Char) : List Char :=
  if c.toNat < 128 then [c]
  else match tableLookup c accentTable with
    | some b => [b]
    | none => []

/-- The character-level part of `_normalize`: lowercase, NFKD/ASCII fold,
then `re.sub(r'[^\w\s]', ' ', text)`. -/
def normChars (s : List Char) : List Char :=
  (((s.map pyLower).flatMap nfkdAsciiFold).map
    (fun c => if isWordChar c || isSpaceChar c then c else ' '))

/-- Accumulator worker for Python `str.split()` (split on whitespace runs,
dropping empty pieces). -/
def splitWsAux : List Char → List Char → List (List Char)
  | [], acc => if acc = [] then [] else [acc.reverse]
  | c :: cs, acc =>
    if isSpaceChar c then
      if acc = [] then splitWsAux cs [] else acc.reverse :: splitWsAux cs []
    else splitWsAux cs (c :: acc)

/-- Python `str.split()` with no separator argument. -/
def pySplitWs (s : List Char) : List (List Char) :=
  splitWsAux s []

/-- `SearchEngine.STOPWORDS`. -/
def STOPWORDS : List (List Char) :=
  ["de".toList, "del".toList, "el".toList, "la".toList, "los".toList,
   "las".toList, "y".toList, "en".toList, "al".toList, "con".toList,
   "por".toList]

/-- `" ".join(tokens)`. -/
def joinTokens : List (List Char) → List Char
  | [] => []
  | [t] => t
  | t :: ts => t ++ ' ' :: joinTokens ts

/-- The token list produced by `_normalize`: split the cleaned characters
and drop stopwords. -/
def normTokens (s : List Char) : List (List Char) :=
  (pySplitWs (normChars s)).filter (fun t => decide (t ∉ STOPWORDS))

/-- `SearchEngine._normalize`: lowercase, strip accents, replace
punctuation by spaces, drop stopwords, rejoin with single spaces. -/
def normalize (s : String) : String :=
  String.mk (joinTokens (normTokens s.toList))

/-- Python `needle in hay` on strings: substring test. -/
def containsSub (needle hay : List Char) : Bool :=
  hay.tails.any (fun t => needle.isPrefixOf t)

/-- The attribute record returned by `SearchEngine._extract_attributes`. -/
structure Attrs where
  currency : Option String
  horizon : Option String
  component : Option String
  scale : Option String
deriving DecidableEq, Repr

/-- `SearchEngine._extract_attributes`: keyword-based facet extraction from
normalized text.  Token-set membership for currency, substring tests for
horizon, component and scale; each facet check is first-match-wins. -/
def extractAttributes (textNorm : String) : Attrs :=
  let tokens := pySplitWs textNorm.toList
  { currency :=
      if "us".toList ∈ tokens ∨ "usd".toList ∈ tokens ∨
         "dolares".toList ∈ tokens then some "usd"
      else if "s".toList ∈ tokens ∨ "pen".toList ∈ tokens ∨
         "soles".toList ∈ tokens then some "pen"
      else none,
    horizon :=
      if containsSub "corto".toList textNorm.toList then some "corto"
      else if containsSub "largo".toList textNorm.toList then some "largo"
      else none,
    component :=
      if containsSub "activos".toList textNorm.toList then some "activos"
      else if containsSub "pasivos".toList textNorm.toList then some "pasivos"
      else none,
    scale :=
      if containsSub "millones".toList textNorm.toList then some "millones"
      else if containsSub "miles".toList textNorm.toList then some "miles"
      else none }

/-- One row of the metadata `DataFrame`, restricted to the columns
`_preprocess_metadata` reads: the two possible spellings of the series-code
column (the raw catalog header is read once with a mojibake encoding) and
the series-name column.  A `none` field models a missing column / `None`
cell. -/
structure Row where
  codigoSerie : Option String
  codigoSerieAlt : Option String
  nombreSerie : Option String
deriving DecidableEq, Repr

/-- Python `a or b` on optional strings: `None` and `""` are falsy. -/
def pyOr (a b : Option String) : Option String :=
  match a with
  | some s => if s = "" then b else some s
  | none => b

/-- One preprocessed item of `self.search_corpus` as built by
`_preprocess_metadata`. -/
structure Record where
  idx : Nat
  codigoSerie : Option String
  nameOriginal : String
  nameNorm : String
  tokens : List (List Char)
  currency : Option String
  horizon : Option String
  component : Option String
  scale : Option String
deriving DecidableEq, Repr

/-- The per-row body of `_preprocess_metadata`. -/
def toRecord (idx : Nat) (r : Row) : Record :=
  let rawName := r.nombreSerie.getD ""
  let nameNorm := normalize rawName
  let attrs := extractAttributes nameNorm
  { idx := idx
    codigoSerie := pyOr r.codigoSerie r.codigoSerieAlt
    nameOriginal := rawName
    nameNorm := nameNorm
    tokens := (pySplitWs nameNorm.toList).dedup
    currency := attrs.currency
    horizon := attrs.horizon
    component := attrs.component
    scale := attrs.scale }

/-- `SearchEngine._preprocess_metadata`: build `self.search_corpus` from the
metadata table (an empty table yields the empty corpus, which is also what
the early `if self.df.empty` return produces). -/
def buildCorpus (rows : List Row) : List Record :=
  rows.enum.map (fun p => toRecord p.1 p.2)

/-! ### Model of `rapidfuzz.fuzz.token_sort_ratio` -/

/-- One dynamic-programming row step for the longest common subsequence:
given the previous row (lcs values against every prefix of `ys`) extend by
one character `x`.  `left` is the value just computed in the current row. -/
def lcsRowGo (x : Char) : List Char → List Nat → Nat → List Nat
  | [], _, _ => []
  | y :: ys, prev, left =>
    let pj := prev.headD 0
    let pj1 := prev.tail.headD 0
    let v := if x = y then pj + 1 else max left pj1
    v :: lcsRowGo x ys prev.tail v

/-- A full row of the LCS table (including the leading 0). -/
def lcsRow (x : Char) (ys : List Char) (prev : List Nat) : List Nat :=
  0 :: lcsRowGo x ys prev 0

/-- Length of the longest common subsequence of two character lists. -/
def lcs (xs ys : List Char) : Nat :=
  (xs.foldl (fun prev x => lcsRow x ys prev)
    (List.replicate (ys.length + 1) 0)).getLastD 0

/-- `rapidfuzz.fuzz.ratio`: normalized Indel similarity scaled to [0,100].
The Indel distance is `|x| + |y| - 2 * lcs x y`, so the similarity is
`100 * (2 * lcs) / (|x| + |y|)`; two empty strings score 100. -/
def ratioQ (x y : List Char) : ℚ :=
  let tot := x.length + y.length
  if tot = 0 then 100 else (200 * (lcs x y : ℚ)) / (tot : ℚ)

/-- Lexicographic comparison of tokens, matching Python string `<` on
code points. -/
def lexLe : List Char → List Char → Bool
  | [], _ => true
  | _ :: _, [] => false
  | a :: as, b :: bs => if a = b then lexLe as bs else decide (a < b)

/-- Stable insertion into a sorted list: place `x` before the first element
`y` with `le x y`. -/
def insertBy (le : α → α → Bool) (x : α) : List α → List α
  | [] => [x]
  | y :: ys => if le x y then x :: y :: ys else y :: insertBy le x ys

/-- Stable insertion sort (the extensional behavior of Python's stable
`sorted` / `list.sort`). -/
def sortBy (le : α → α → Bool) : List α → List α
  | [] => []
  | x :: xs => insertBy le x (sortBy le xs)

/-- `" ".join(sorted(s.split()))`, the preprocessing of
`token_sort_ratio`. -/
def sortJoin (s : String) : List Char :=
  joinTokens (sortBy lexLe (pySplitWs s.toList))

/-- `rapidfuzz.fuzz.token_sort_ratio`. -/
def tokenSortRatio (a b : String) : ℚ :=
  ratioQ (sortJoin a) (sortJoin b)

/-! ### `SearchEngine.solve` -/

/-- The module-level `fuzz` value: `some` scoring function when the
`rapidfuzz` import succeeds, `none` when it fails. -/
abbrev Fuzz := Option (String → String → ℚ)

/-- The base score in the scoring loop of `solve`: `fuzz.token_sort_ratio`
when the library is available, `0` otherwise (lines 185-187). -/
def fzScore (fz : Fuzz) (qNorm cNorm : String) : ℚ :=
  match fz with
  | some f => f qNorm cNorm
  | none => 0

/-- One entry of `scored_candidates`. -/
structure Scored where
  series : Record
  score : ℚ
  originalScore : ℚ
  missingQueryTokens : List (List Char)
deriving DecidableEq, Repr

/-- The loop body of the scoring stage: score one candidate, apply the
missing-query-token penalty, keep it only when the adjusted score reaches
the acceptance threshold 80. -/
def scoreOne (fz : Fuzz) (qNorm : String) (qTokens : List (List Char))
    (c : Record) : Option Scored :=
  let score := fzScore fz qNorm c.nameNorm
  let missing := qTokens.filter (fun t => decide (t ∉ c.tokens))
  let finalScore := score - 5 * (missing.length : ℚ)
  if 80 ≤ finalScore then
    some { series := c, score := finalScore, originalScore := score,
           missingQueryTokens := missing }
  else none

/-- The scoring stage of `solve` over the filtered candidates. -/
def scoreCands (fz : Fuzz) (qNorm : String) (qTokens : List (List Char))
    (cands : List Record) : List Scored :=
  cands.filterMap (scoreOne fz qNorm qTokens)

/-- The hard-filter stage of `solve`: for each non-null query facet among
currency, horizon and component, keep only candidates whose facet equals
the query's value. -/
def filterCands (corpus : List Record) (qa : Attrs) : List Record :=
  let c1 := match qa.currency with
    | some v => corpus.filter (fun c => decide (c.currency = some v))
    | none => corpus
  let c2 := match qa.horizon with
    | some v => c1.filter (fun c => decide (c.horizon = some v))
    | none => c1
  match qa.component with
  | some v => c2.filter (fun c => decide (c.component = some v))
  | none => c2

/-- Descending stable comparison on adjusted scores:
`sort(key=lambda x: x['score'], reverse=True)`. -/
def scoreGe (a b : Scored) : Bool :=
  decide (b.score ≤ a.score)

/-- Round half to even (Python `round`) of a rational number. -/
def roundHalfEven (x : ℚ) : ℤ :=
  if x - (Int.floor x : ℚ) < 1/2 then Int.floor x
  else if 1/2 < x - (Int.floor x : ℚ) then Int.floor x + 1
  else if Int.floor x % 2 = 0 then Int.floor x else Int.floor x + 1

/-- Python `round(x, 2)`. -/
def pyRound2 (x : ℚ) : ℚ :=
  (roundHalfEven (x * 100) : ℚ) / 100

/-- The result dictionary returned by `solve`, as a tagged variant:
the success dict, the ambiguity dict (whose `error` field is the fixed
string `"ambiguedad"`), and the `error`/`reason` dict. -/
inductive SolveResult where
  | resolved (codigoSerie : Option String) (confidence : ℚ) (name : String)
  | ambiguous (candidates : List (Option String)) (reason : String)
  | err (error : String) (reason : String)
deriving DecidableEq, Repr

/-- The success dict built (twice, identically) in `solve`. -/
def resolvedOf (top : Scored) : SolveResult :=
  .resolved top.series.codigoSerie (pyRound2 (top.score / 100))
    top.series.nameOriginal

/-- The query token set `set(q_norm.split())`, as a deduplicated list. -/
def qTokensOf (query : String) : List (List Char) :=
  (pySplitWs (normalize query).toList).dedup

/-- The code-side top tier of the nonempty ranked candidate list
`top :: rest`: everything within 5 points of the top element's score
(line 217). -/
def codeTier (top : Scored) (rest : List Scored) : List Scored :=
  (top :: rest).filter (fun x => decide (top.score - 5 ≤ x.score))

/-- Lines 203-237 of `solve`, applied to the already-sorted candidate list:
no survivor means `low_score`; a single survivor is returned directly; with
several survivors the top tier (the local variables `candidates_top_tier`,
`currencies` and `components` of the source are inlined here) decides
between the ambiguity response and the deterministic winner. -/
def resolvePolicy : List Scored → SolveResult
  | [] => .err "no_match" "low_score"
  | top :: rest =>
    if rest = [] then resolvedOf top
    else
      if 1 < ((codeTier top rest).map (fun x => x.series.currency)).dedup.length ∨
         1 < ((codeTier top rest).map (fun x => x.series.component)).dedup.length then
        .ambiguous (((codeTier top rest).take 5).map (fun x => x.series.codigoSerie))
          "mixed_attributes_in_top_results"
      else resolvedOf top

/-- The tail of `solve` from line 201 on: sort the accepted candidates by
descending adjusted score (stable, like Python's `list.sort` with
`reverse=True`), then apply the single-winner / top-tier ambiguity
policy. -/
def rankAndResolve (scored : List Scored) : SolveResult :=
  resolvePolicy (sortBy scoreGe scored)

/-- `SearchEngine.solve`: resolve a query against the preprocessed corpus.
Faithful to lines 145-237 of `search_engine.py`: empty-corpus check, query
normalization, empty-query check, hard filters, scoring with threshold 80,
stable descending sort, then the single-winner / top-tier ambiguity policy
(the source's local variables `q_norm`, `q_attrs`, `q_tokens` and
`candidates` are inlined). -/
def solve (fz : Fuzz) (corpus : List Record) (query : String) : SolveResult :=
  if corpus = [] then .err "no_match" "empty_corpus"
  else if (pySplitWs (normalize query).toList).dedup = [] then
    .err "no_match" "empty_query"
  else if filterCands corpus (extractAttributes (normalize query)) = [] then
    .err "no_match" "filters_eliminated_all"
  else
    rankAndResolve (scoreCands fz (normalize query)
      ((pySplitWs (normalize query).toList).dedup)
      (filterCands corpus (extractAttributes (normalize query))))

/-- The accepted (scored, threshold-cleared) candidates of a query, before
sorting: the contents of `scored_candidates` in source order. -/
def acceptedOf (fz : Fuzz) (corpus : List Record) (query : String) :
    List Scored :=
  scoreCands fz (normalize query) (qTokensOf query)
    (filterCands corpus (extractAttributes (normalize query)))

/-- The maximum adjusted score of a list of accepted candidates (adjusted
scores are all ≥ 80, so the base 0 never dominates a nonempty list). -/
def maxScoreOf (l : List Scored) : ℚ :=
  l.foldr (fun x m => max x.score m) 0

/-- The top tier of a list of accepted candidates: those whose adjusted
score is within 5 points of the maximum adjusted score. -/
def topTierOf (l : List Scored) : List Scored :=
  l.filter (fun x => decide (maxScoreOf l - 5 ≤ x.score))

/-- A top tier with more than one distinct currency value or more than one
distinct component value (the ambiguity trigger of the resolution
policy). -/
def mixedTier (l : List Scored) : Prop :=
  1 < ((topTierOf l).map (fun x => x.series.currency)).dedup.length ∨
  1 < ((topTierOf l).map (fun x => x.series.component)).dedup.length

instance (l : List Scored) : Decidable (mixedTier l) := by
  unfold mixedTier
  infer_instance

/-- A record passes every non-null facet constraint of the query
attributes: each non-null query facet among currency, horizon and
component equals the record's facet value exactly. -/
def facetsMatch (qa : Attrs) (c : Record) : Bool :=
  (match qa.currency with
    | some v => decide (c.currency = some v)
    | none => true) &&
  (match qa.horizon with
    | some v => decide (c.horizon = some v)
    | none => true) &&
  (match qa.component with
    | some v => decide (c.component = some v)
    | none => true)

/-- Modelled from the spec: the fallback base score the spec describes for
a missing similarity library — the token-overlap ratio
`|query_tokens ∩ candidate_tokens| / |query_tokens|` scaled to [0,100].
No such fallback exists in `search_engine.py` (lines 184-191 score 0 when
`fuzz is None`); this definition only serves to compare the spec's words
with the code's behavior. -/
def specTokenOverlap (qTokens cTokens : List (List Char)) : ℚ :=
  if qTokens.length = 0 then 0
  else 100 * ((qTokens.filter (fun t => decide (t ∈ cTokens))).length : ℚ) /
    (qTokens.length : ℚ)

/-- Characters that survive the normalization pipeline unchanged: fixed
points of lowercasing, ASCII (hence fixed by the NFKD/ASCII fold) and word
characters (hence fixed by the punctuation substitution). -/
def goodChar (c : Char) : Prop :=
  pyLower c = c ∧ c.toNat < 128 ∧ isWordChar c = true

/-! ### Concrete corpora used by the concrete theorems -/

/-- The scoring function when the `rapidfuzz` import succeeds. -/
def fuzzAvailable : Fuzz := some tokenSortRatio

/-- A constant similarity function bounded by 100, used to instantiate
statements that hold for any bounded scoring function. -/
def constFuzz90 : Fuzz := some (fun _ _ => 90)

/-- Catalog row `PD1` of the spec's two-record exchange-rate example. -/
def rowPD1 : Row := ⟨some "PD1", none, some "Tipo de Cambio Compra USD"⟩

/-- Catalog row `PD2` of the spec's two-record exchange-rate example. -/
def rowPD2 : Row := ⟨some "PD2", none, some "Tipo de Cambio Venta USD"⟩

/-- The spec's two-record exchange-rate corpus. -/
def corpusPD : List Record := buildCorpus [rowPD1, rowPD2]

/-- A one-record corpus whose only record is named `Tipo de Cambio`:
a query equal to the full (normalized) name is fully token-contained in
it. -/
def corpusTC : List Record := buildCorpus [⟨some "TC1", none, some "Tipo de Cambio"⟩]

/-- A one-record corpus with a sol-denominated record, used to make the
hard currency filter eliminate every candidate. -/
def corpusSoles : List Record := buildCorpus [⟨some "S1", none, some "Credito en Soles"⟩]

/-- A two-record corpus producing two accepted candidates whose top tier
is a single candidate (no mixed attributes). -/
def corpusTwoAccepted : List Record :=
  buildCorpus [⟨some "T1", none, some "Tipo de Cambio Compra USD"⟩,
               ⟨some "T2", none, some "Tipo Cambio Compra USD Promedio"⟩]

/-! ## Helper lemmas -/

theorem filterCands_eq_filter (corpus : List Record) (qa : Attrs) :
    filterCands corpus qa = corpus.filter (facetsMatch qa) := by
  unfold filterCands facetsMatch
  rcases qa with ⟨cu, ho, co, sc⟩
  cases cu <;> cases ho <;> cases co <;>
    simp [List.filter_filter, Bool.and_comm, Bool.and_assoc, Bool.and_left_comm]

theorem filterCands_nil (qa : Attrs) : filterCands [] qa = [] := by
  rw [filterCands_eq_filter]; rfl

theorem mem_scoreCands_ge (fz : Fuzz) (qn : String) (qt : List (List Char))
    (cands : List Record) (x : Scored) (hx : x ∈ scoreCands fz qn qt cands) :
    80 ≤ x.score := by
  rcases List.mem_filterMap.mp hx with ⟨c, _, hc⟩
  simp only [scoreOne] at hc
  split at hc
  · cases hc; assumption
  · cases hc

theorem mem_scoreCands_le (fz : Fuzz) (qn : String) (qt : List (List Char))
    (cands : List Record) (hb : ∀ a b, fzScore fz a b ≤ 100) (x : Scored)
    (hx : x ∈ scoreCands fz qn qt cands) : x.score ≤ 100 := by
  rcases List.mem_filterMap.mp hx with ⟨c, _, hc⟩
  simp only [scoreOne] at hc
  split at hc
  · cases hc
    have h1 : (0 : ℚ) ≤ 5 * ((qt.filter (fun t => decide (t ∉ c.tokens))).length : ℚ) := by
      positivity
    have h2 := hb qn c.nameNorm
    simp only
    linarith
  · cases hc

theorem scoreCands_none_eq_nil (qn : String) (qt : List (List Char))
    (cands : List Record) : scoreCands none qn qt cands = [] := by
  unfold scoreCands
  rw [List.filterMap_eq_nil_iff]
  intro c _
  unfold scoreOne
  rw [if_neg]
  intro h80
  have h1 : (0 : ℚ) ≤ 5 * ((qt.filter (fun t => decide (t ∉ c.tokens))).length : ℚ) := by
    positivity
  have : fzScore none qn c.nameNorm = 0 := rfl
  rw [this] at h80
  linarith

theorem solve_reaches (fz : Fuzz) (corpus : List Record) (q : String)
    (hc : corpus ≠ []) (ht : qTokensOf q ≠ [])
    (hf : filterCands corpus (extractAttributes (normalize q)) ≠ []) :
    solve fz corpus q = rankAndResolve (acceptedOf fz corpus q) := by
  unfold qTokensOf at ht
  unfold solve acceptedOf qTokensOf
  rw [if_neg hc, if_neg ht, if_neg hf]

theorem perm_insertBy {α : Type} (le : α → α → Bool) (x : α) (l : List α) :
    List.Perm (insertBy le x l) (x :: l) := by
  induction l with
  | nil => exact List.Perm.refl _
  | cons y ys ih =>
    unfold insertBy
    split
    · exact List.Perm.refl _
    · exact (ih.cons y).trans (List.Perm.swap x y ys)

theorem perm_sortBy {α : Type} (le : α → α → Bool) (l : List α) :
    List.Perm (sortBy le l) l := by
  induction l with
  | nil => exact List.Perm.refl _
  | cons x xs ih => exact (perm_insertBy le x (sortBy le xs)).trans (ih.cons x)

theorem mem_insertBy {α : Type} (le : α → α → Bool) (x : α) (l : List α)
    (a : α) : a ∈ insertBy le x l ↔ a = x ∨ a ∈ l := by
  rw [(perm_insertBy le x l).mem_iff, List.mem_cons]

theorem pairwise_insertBy {α : Type} (le : α → α → Bool)
    (htot : ∀ a b, le a b = true ∨ le b a = true)
    (htrans : ∀ a b c, le a b = true → le b c = true → le a c = true)
    (x : α) (l : List α) (hl : l.Pairwise (fun a b => le a b = true)) :
    (insertBy le x l).Pairwise (fun a b => le a b = true) := by
  induction l with
  | nil => exact List.pairwise_singleton _ x
  | cons y ys ih =>
    rcases List.pairwise_cons.mp hl with ⟨hy, hys⟩
    unfold insertBy
    split
    · refine List.pairwise_cons.mpr ⟨?_, hl⟩
      intro b hb
      rcases List.mem_cons.mp hb with rfl | hb'
      · assumption
      · exact htrans x y b (by assumption) (hy b hb')
    · refine List.pairwise_cons.mpr ⟨?_, ih hys⟩
      intro b hb
      rcases (mem_insertBy le x ys b).mp hb with rfl | hb'
      · rcases htot b y with h | h
        · exact absurd h (by assumption)
        · exact h
      · exact hy b hb'

theorem pairwise_sortBy {α : Type} (le : α → α → Bool)
    (htot : ∀ a b, le a b = true ∨ le b a = true)
    (htrans : ∀ a b c, le a b = true → le b c = true → le a c = true)
    (l : List α) : (sortBy le l).Pairwise (fun a b => le a b = true) := by
  induction l with
  | nil => exact List.Pairwise.nil
  | cons x xs ih => exact pairwise_insertBy le htot htrans x (sortBy le xs) ih

theorem scoreGe_total (a b : Scored) : scoreGe a b = true ∨ scoreGe b a = true := by
  unfold scoreGe
  rcases le_total b.score a.score with h | h
  · exact Or.inl (decide_eq_true h)
  · exact Or.inr (decide_eq_true h)

theorem scoreGe_trans (a b c : Scored) (h1 : scoreGe a b = true)
    (h2 : scoreGe b c = true) : scoreGe a c = true := by
  unfold scoreGe at *
  exact decide_eq_true (le_trans (of_decide_eq_true h2) (of_decide_eq_true h1))

theorem sortBy_scoreGe_head_max (l : List Scored) (top : Scored)
    (rest : List Scored) (h : sortBy scoreGe l = top :: rest) :
    ∀ y ∈ l, y.score ≤ top.score := by
  intro y hy
  have hperm : List.Perm (sortBy scoreGe l) l := perm_sortBy _ _
  have hyS : y ∈ top :: rest := by
    rw [← h]
    exact hperm.mem_iff.mpr hy
  rcases List.mem_cons.mp hyS with rfl | hy'
  · exact le_refl _
  · have hpw := pairwise_sortBy scoreGe scoreGe_total scoreGe_trans l
    rw [h] at hpw
    have := (List.pairwise_cons.mp hpw).1 y hy'
    exact of_decide_eq_true this

theorem maxScoreOf_cons (y : Scored) (ys : List Scored) :
    maxScoreOf (y :: ys) = max y.score (maxScoreOf ys) := rfl

theorem le_maxScoreOf (l : List Scored) (x : Scored) (hx : x ∈ l) :
    x.score ≤ maxScoreOf l := by
  induction l with
  | nil => cases hx
  | cons y ys ih =>
    rw [maxScoreOf_cons]
    rcases List.mem_cons.mp hx with rfl | hx'
    · exact le_max_left _ _
    · exact le_trans (ih hx') (le_max_right _ _)

theorem maxScoreOf_le (l : List Scored) (m : ℚ) (h0 : 0 ≤ m)
    (h : ∀ x ∈ l, x.score ≤ m) : maxScoreOf l ≤ m := by
  induction l with
  | nil => exact h0
  | cons y ys ih =>
    rw [maxScoreOf_cons]
    exact max_le (h y (List.mem_cons_self y ys))
      (ih (fun x hx => h x (List.mem_cons_of_mem y hx)))

theorem pyRound2_bounds (s : ℚ) (h80 : 80 ≤ s) (h100 : s ≤ 100) :
    0 ≤ pyRound2 (s / 100) ∧ pyRound2 (s / 100) ≤ 1 := by
  have hdiv : s / 100 * 100 = s := by
    field_simp
  unfold pyRound2 roundHalfEven
  rw [hdiv]
  have hf80 : (80 : ℤ) ≤ Int.floor s := by
    rw [Int.le_floor]
    exact_mod_cast h80
  have hfle : ((Int.floor s : ℤ) : ℚ) ≤ s := Int.floor_le s
  have hf100 : Int.floor s ≤ 100 := by
    have : ((Int.floor s : ℤ) : ℚ) ≤ 100 := le_trans hfle h100
    exact_mod_cast this
  have key : ∀ X : ℤ, 0 ≤ X → X ≤ 100 →
      0 ≤ (X : ℚ) / 100 ∧ (X : ℚ) / 100 ≤ 1 := by
    intro X hX0 hX100
    constructor
    · positivity
    · rw [div_le_one (by norm_num)]
      exact_mod_cast hX100
  split
  · exact key _ (by omega) hf100
  · split
    · refine key _ (by omega) ?_
      have hhalf : (1 : ℚ) / 2 < s - (Int.floor s : ℚ) := by assumption
      have : Int.floor s ≤ 99 := by
        by_contra hcon
        push_neg at hcon
        have h100' : Int.floor s = 100 := le_antisymm hf100 hcon
        rw [h100'] at hhalf
        push_cast at hhalf
        linarith
      omega
    · split
      · exact key _ (by omega) hf100
      · refine key _ (by omega) ?_
        have hge : ¬ (s - (Int.floor s : ℚ) < 1 / 2) := by assumption
        push_neg at hge
        have : Int.floor s ≤ 99 := by
          by_contra hcon
          push_neg at hcon
          have h100' : Int.floor s = 100 := le_antisymm hf100 hcon
          rw [h100'] at hge
          push_cast at hge
          linarith
        omega

theorem splitWsAux_eq_nil (s : List Char) :
    ∀ acc, splitWsAux s acc = [] → acc = [] ∧ ∀ c ∈ s, isSpaceChar c = true := by
  induction s with
  | nil =>
    intro acc h
    unfold splitWsAux at h
    split at h
    · exact ⟨by assumption, by simp⟩
    · cases h
  | cons c cs ih =>
    intro acc h
    unfold splitWsAux at h
    split at h
    · split at h
      · rcases ih [] h with ⟨_, hall⟩
        refine ⟨by assumption, fun d hd => ?_⟩
        rcases List.mem_cons.mp hd with rfl | hd'
        · assumption
        · exact hall d hd'
      · cases h
    · rcases ih (c :: acc) h with ⟨habs, _⟩
      cases habs

theorem containsSub_allspace (needle hay : List Char)
    (hhay : ∀ c ∈ hay, isSpaceChar c = true)
    (hneed : ∃ c ∈ needle, isSpaceChar c = false) :
    containsSub needle hay = false := by
  rcases hneed with ⟨d, hd, hds⟩
  by_contra h
  rw [Bool.not_eq_false] at h
  unfold containsSub at h
  rcases List.any_eq_true.mp h with ⟨t, htails, hpre⟩
  have hsuff : t <:+ hay := (List.mem_tails t hay).mp htails
  have hpx : needle <+: t := List.isPrefixOf_iff_prefix.mp hpre
  have : d ∈ hay := hsuff.subset (hpx.subset hd)
  rw [hhay d this] at hds
  cases hds

theorem extract_allnone (t : String) (h : pySplitWs t.toList = []) :
    extractAttributes t = ⟨none, none, none, none⟩ := by
  have hall : ∀ c ∈ t.toList, isSpaceChar c = true :=
    (splitWsAux_eq_nil t.toList [] h).2
  have hsub : ∀ needle : List Char, (∃ c ∈ needle, isSpaceChar c = false) →
      containsSub needle t.toList = false :=
    fun needle hn => containsSub_allspace needle t.toList hall hn
  simp only [extractAttributes]
  rw [h, hsub "corto".toList ⟨'c', by decide, by decide⟩,
      hsub "largo".toList ⟨'l', by decide, by decide⟩,
      hsub "activos".toList ⟨'a', by decide, by decide⟩,
      hsub "pasivos".toList ⟨'p', by decide, by decide⟩,
      hsub "millones".toList ⟨'m', by decide, by decide⟩,
      hsub "miles".toList ⟨'m', by decide, by decide⟩]
  rfl

theorem facetsMatch_allnone (c : Record) :
    facetsMatch ⟨none, none, none, none⟩ c = true := rfl

theorem isWordChar_not_space (c : Char) (h : isWordChar c = true) :
    isSpaceChar c = false := by
  by_contra hs
  rw [Bool.not_eq_false] at hs
  simp only [isSpaceChar, Bool.or_eq_true, decide_eq_true_eq] at hs
  rcases hs with ((((rfl | rfl) | rfl) | rfl) | rfl) | rfl <;>
    exact absurd h (by decide)

theorem tableLookup_mem (c v : Char) (l : List (Char × Char))
    (h : tableLookup c l = some v) : (c, v) ∈ l := by
  induction l with
  | nil => cases h
  | cons p ps ih =>
    unfold tableLookup at h
    split at h
    · injection h with hv
      rename_i hc
      rw [List.mem_cons]
      left
      rw [hc, ← hv]
    · exact List.mem_cons_of_mem p (ih h)

theorem lowerTable_values_fixed :
    ∀ p ∈ lowerTable, tableLookup p.2 lowerTable = none := by decide

theorem accentTable_values_good :
    ∀ p ∈ accentTable,
      tableLookup p.2 lowerTable = none ∧ p.2.toNat < 128 := by decide

theorem pyLower_idem (c : Char) : pyLower (pyLower c) = pyLower c := by
  rcases h : tableLookup c lowerTable with _ | v
  · unfold pyLower
    rw [h]
    simp only [Option.getD_none]
    rw [h]
    rfl
  · have hv : tableLookup v lowerTable = none :=
      lowerTable_values_fixed (c, v) (tableLookup_mem c v lowerTable h)
    unfold pyLower
    rw [h]
    simp only [Option.getD_some]
    rw [hv]
    rfl

theorem nfkdAsciiFold_chars (x d : Char) (hd : d ∈ nfkdAsciiFold (pyLower x)) :
    pyLower d = d ∧ d.toNat < 128 := by
  unfold nfkdAsciiFold at hd
  split at hd
  · rcases List.mem_singleton.mp hd with rfl
    refine ⟨pyLower_idem x, by assumption⟩
  · cases hlook : tableLookup (pyLower x) accentTable with
    | none =>
      rw [hlook] at hd
      simp at hd
    | some b =>
      rw [hlook] at hd
      simp only [List.mem_singleton] at hd
      subst hd
      have hgood := accentTable_values_good (pyLower x, d)
        (tableLookup_mem (pyLower x) d accentTable hlook)
      refine ⟨?_, hgood.2⟩
      have hb : tableLookup d lowerTable = none := hgood.1
      unfold pyLower
      rw [hb]
      rfl

theorem normChars_chars (s : List Char) (d : Char) (hd : d ∈ normChars s) :
    isSpaceChar d = true ∨ goodChar d := by
  unfold normChars at hd
  rcases List.mem_map.mp hd with ⟨e, he, hde⟩
  rcases List.mem_flatMap.mp he with ⟨y, hy, hey⟩
  rcases List.mem_map.mp hy with ⟨x, _, hyx⟩
  rw [← hyx] at hey
  have hfix := nfkdAsciiFold_chars x e hey
  by_cases hcase : (isWordChar e || isSpaceChar e) = true
  · rw [if_pos hcase] at hde
    rcases Bool.or_eq_true_iff.mp hcase with hw | hsp
    · right
      rw [← hde]
      exact ⟨hfix.1, hfix.2, hw⟩
    · left
      rw [← hde]
      exact hsp
  · rw [if_neg hcase] at hde
    left
    rw [← hde]
    decide

theorem splitWsAux_good (Q : Char → Prop) (s : List Char) :
    ∀ acc : List Char, (∀ c ∈ acc, Q c) →
      (∀ c ∈ s, isSpaceChar c = false → Q c) →
      ∀ t ∈ splitWsAux s acc, t ≠ [] ∧ ∀ c ∈ t, Q c := by
  induction s with
  | nil =>
    intro acc hacc _ t ht
    unfold splitWsAux at ht
    split at ht
    · cases ht
    · rcases List.mem_singleton.mp ht with rfl
      rename_i hne
      refine ⟨?_, fun c hc => hacc c (List.mem_reverse.mp hc)⟩
      simpa using hne
  | cons c cs ih =>
    intro acc hacc hs t ht
    unfold splitWsAux at ht
    split at ht
    · rename_i hspace
      split at ht
      · exact ih [] (by simp) (fun d hd hnd => hs d (List.mem_cons_of_mem c hd) hnd) t ht
      · rename_i hne
        rcases List.mem_cons.mp ht with rfl | ht'
        · refine ⟨?_, fun d hd => hacc d (List.mem_reverse.mp hd)⟩
          simpa using hne
        · exact ih [] (by simp) (fun d hd hnd => hs d (List.mem_cons_of_mem c hd) hnd) t ht'
    · rename_i hspace
      refine ih (c :: acc) ?_ (fun d hd hnd => hs d (List.mem_cons_of_mem c hd) hnd) t ht
      intro d hd
      rcases List.mem_cons.mp hd with heq | hd'
      · rw [heq]
        exact hs _ (List.mem_cons_self _ _) (by rwa [Bool.not_eq_true] at hspace)
      · exact hacc d hd'

theorem normTokens_good (s : List Char) :
    ∀ t ∈ normTokens s,
      t ≠ [] ∧ (∀ c ∈ t, goodChar c) ∧ t ∉ STOPWORDS := by
  intro t ht
  unfold normTokens at ht
  rcases List.mem_filter.mp ht with ⟨hsplit, hstop⟩
  have hgood := splitWsAux_good goodChar (normChars s) [] (by simp)
    (fun c hc hns => by
      rcases normChars_chars s c hc with hsp | hg
      · rw [hsp] at hns
        cases hns
      · exact hg) t hsplit
  exact ⟨hgood.1, hgood.2, of_decide_eq_true hstop⟩

theorem splitWsAux_append (t : List Char) :
    ∀ (s acc : List Char), (∀ c ∈ t, isSpaceChar c = false) →
      splitWsAux (t ++ s) acc = splitWsAux s (t.reverse ++ acc) := by
  induction t with
  | nil => intro s acc _; rfl
  | cons c t' ih =>
    intro s acc hns
    have hc : isSpaceChar c = false := hns c (List.mem_cons_self c t')
    have hstep : splitWsAux (c :: (t' ++ s)) acc = splitWsAux (t' ++ s) (c :: acc) := by
      simp only [splitWsAux]
      rw [if_neg (by rw [hc]; exact Bool.false_ne_true)]
    rw [List.cons_append, hstep,
      ih s (c :: acc) (fun d hd => hns d (List.mem_cons_of_mem c hd))]
    congr 1
    simp

theorem pySplitWs_joinTokens (ts : List (List Char))
    (h : ∀ t ∈ ts, t ≠ [] ∧ ∀ c ∈ t, isSpaceChar c = false) :
    pySplitWs (joinTokens ts) = ts := by
  induction ts with
  | nil => rfl
  | cons t ts' ih =>
    rcases h t (List.mem_cons_self t ts') with ⟨htne, htns⟩
    have hrevne : t.reverse ≠ [] := by simpa using htne
    cases ts' with
    | nil =>
      show pySplitWs (joinTokens [t]) = [t]
      unfold pySplitWs
      rw [show joinTokens [t] = t ++ [] by simp [joinTokens]]
      rw [splitWsAux_append t [] [] htns, List.append_nil]
      simp only [splitWsAux]
      rw [if_neg hrevne, List.reverse_reverse]
    | cons t2 ts'' =>
      show pySplitWs (joinTokens (t :: t2 :: ts'')) = t :: t2 :: ts''
      unfold pySplitWs
      rw [show joinTokens (t :: t2 :: ts'') = t ++ (' ' :: joinTokens (t2 :: ts'')) from rfl]
      rw [splitWsAux_append t (' ' :: joinTokens (t2 :: ts'')) [] htns, List.append_nil]
      simp only [splitWsAux]
      rw [if_pos (show isSpaceChar ' ' = true by decide), if_neg hrevne,
        List.reverse_reverse]
      have hrec := ih (fun u hu => h u (List.mem_cons_of_mem t hu))
      unfold pySplitWs at hrec
      rw [hrec]

theorem normChars_fixed (l : List Char) (h : ∀ c ∈ l, goodChar c ∨ c = ' ') :
    normChars l = l := by
  induction l with
  | nil => rfl
  | cons c l' ih =>
    have hc := h c (List.mem_cons_self c l')
    have h1 : pyLower c = c := by
      rcases hc with ⟨h1, _, _⟩ | rfl
      · exact h1
      · decide
    have h2 : nfkdAsciiFold c = [c] := by
      unfold nfkdAsciiFold
      rw [if_pos]
      rcases hc with ⟨_, h2, _⟩ | rfl
      · exact h2
      · decide
    have h3 : (isWordChar c || isSpaceChar c) = true := by
      rcases hc with ⟨_, _, h3⟩ | rfl
      · rw [h3]; rfl
      · decide
    have ih' := ih (fun d hd => h d (List.mem_cons_of_mem c hd))
    unfold normChars at ih' ⊢
    simp only [List.map_cons, List.flatMap_cons, h1, h2, List.map_append,
      List.map_nil, List.singleton_append, List.nil_append]
    rw [if_pos h3, ih']

theorem joinTokens_chars (ts : List (List Char))
    (h : ∀ t ∈ ts, ∀ c ∈ t, goodChar c) :
    ∀ c ∈ joinTokens ts, goodChar c ∨ c = ' ' := by
  induction ts with
  | nil => intro c hc; cases hc
  | cons t ts' ih =>
    intro c hc
    cases ts' with
    | nil =>
      exact Or.inl (h t (List.mem_cons_self t []) c (by simpa [joinTokens] using hc))
    | cons t2 ts'' =>
      rw [show joinTokens (t :: t2 :: ts'') = t ++ (' ' :: joinTokens (t2 :: ts'')) from rfl]
        at hc
      rcases List.mem_append.mp hc with hct | hcrest
      · exact Or.inl (h t (List.mem_cons_self t _) c hct)
      · rcases List.mem_cons.mp hcrest with rfl | hc'
        · exact Or.inr rfl
        · exact ih (fun u hu => h u (List.mem_cons_of_mem t hu)) c hc'

/-! ## Claims -/

/-! ## Claims -/

/-- C10: the empty-corpus check takes precedence over every other check:
for an engine built from an empty metadata table, `solve` returns the error
outcome with reason `empty_corpus` for every query string, so no query
(including empty and whitespace-only ones) ever reports `empty_query` on an
empty corpus. -/
theorem empty_corpus_precedence (fz : Fuzz) :
    (∀ q, solve fz (buildCorpus []) q = .err "no_match" "empty_corpus") ∧
    (∀ q, solve fz (buildCorpus []) q ≠ .err "no_match" "empty_query") := by
  have h1 : ∀ q, solve fz (buildCorpus []) q = .err "no_match" "empty_corpus" :=
    fun _ => rfl
  refine ⟨h1, fun q hq => ?_⟩
  rw [h1 q] at hq
  exact absurd hq (by decide)

theorem empty_corpus_precedence_witness :
    solve fuzzAvailable (buildCorpus []) "" = .err "no_match" "empty_corpus" ∧
    solve fuzzAvailable (buildCorpus []) "" ≠ .err "no_match" "empty_query" :=
  ⟨(empty_corpus_precedence fuzzAvailable).1 "",
   (empty_corpus_precedence fuzzAvailable).2 ""⟩

/-- C9: over a non-empty corpus, every query that normalizes to no tokens
(the empty string, whitespace-only strings, strings of stopwords and
punctuation only) makes `solve` return the `NotFound` outcome with reason
`empty_query`. -/
theorem solve_empty_query (fz : Fuzz) (corpus : List Record) (q : String)
    (hc : corpus ≠ []) (hq : pySplitWs (normalize q).toList = []) :
    solve fz corpus q = .err "no_match" "empty_query" := by
  unfold solve
  rw [if_neg hc, if_pos (by rw [hq]; rfl)]

theorem solve_empty_query_witness :
    corpusPD ≠ [] ∧ pySplitWs (normalize " de la, por!! ").toList = [] ∧
    solve fuzzAvailable corpusPD " de la, por!! " = .err "no_match" "empty_query" :=
  ⟨by decide, by decide,
    solve_empty_query fuzzAvailable corpusPD " de la, por!! " (by decide) (by decide)⟩

/-- C8: currency extraction is first-match-wins and exclusive: whenever one
of the tokens `us`, `usd`, `dolares` is present the extracted currency is
`usd` (even if a `pen` keyword is also present); else `pen` whenever one of
`s`, `pen`, `soles` is present; else null; and no input extracts both
currencies. -/
theorem extract_currency_first_match (t : String) :
    ((("us".toList ∈ pySplitWs t.toList) ∨ ("usd".toList ∈ pySplitWs t.toList) ∨
        ("dolares".toList ∈ pySplitWs t.toList)) →
      (extractAttributes t).currency = some "usd") ∧
    ((¬ (("us".toList ∈ pySplitWs t.toList) ∨ ("usd".toList ∈ pySplitWs t.toList) ∨
        ("dolares".toList ∈ pySplitWs t.toList))) →
      (("s".toList ∈ pySplitWs t.toList) ∨ ("pen".toList ∈ pySplitWs t.toList) ∨
        ("soles".toList ∈ pySplitWs t.toList)) →
      (extractAttributes t).currency = some "pen") ∧
    ((¬ (("us".toList ∈ pySplitWs t.toList) ∨ ("usd".toList ∈ pySplitWs t.toList) ∨
        ("dolares".toList ∈ pySplitWs t.toList))) →
      (¬ (("s".toList ∈ pySplitWs t.toList) ∨ ("pen".toList ∈ pySplitWs t.toList) ∨
        ("soles".toList ∈ pySplitWs t.toList))) →
      (extractAttributes t).currency = none) ∧
    ¬ ((extractAttributes t).currency = some "usd" ∧
       (extractAttributes t).currency = some "pen") := by
  refine ⟨fun h => ?_, fun h1 h2 => ?_, fun h1 h2 => ?_, fun ⟨ha, hb⟩ => ?_⟩
  · simp only [extractAttributes]
    rw [if_pos h]
  · simp only [extractAttributes]
    rw [if_neg h1, if_pos h2]
  · simp only [extractAttributes]
    rw [if_neg h1, if_neg h2]
  · rw [ha] at hb
    exact absurd hb (by decide)

theorem extract_currency_first_match_witness :
    (extractAttributes "usd soles").currency = some "usd" ∧
    ¬ ((extractAttributes "usd soles").currency = some "usd" ∧
       (extractAttributes "usd soles").currency = some "pen") :=
  ⟨(extract_currency_first_match "usd soles").1 (Or.inr (Or.inl (by decide))),
   (extract_currency_first_match "usd soles").2.2.2⟩

/-- C2 counterexample: on the spec's two-record exchange-rate corpus the
query `tipo cambio` does NOT return an ambiguity or a candidate list — both
candidates fall below the acceptance threshold 80 and `solve` returns the
`NotFound` outcome `low_score`, which the claim explicitly excludes. -/
theorem solve_pd_no_side_notfound :
    solve fuzzAvailable corpusPD "tipo cambio" = .err "no_match" "low_score" := by
  with_unfolding_all decide

/-- C2 (amended): on the two-record corpus (`PD1` = "Tipo de Cambio Compra
USD", `PD2` = "Tipo de Cambio Venta USD"), `solve "tipo cambio compra"`
resolves deterministically to `PD1`, while `solve "tipo cambio"` returns
the `NotFound` outcome with reason `low_score` — never an arbitrarily
picked single code. -/
theorem solve_pd_example :
    solve fuzzAvailable corpusPD "tipo cambio compra" =
      .resolved (some "PD1") (9 / 10) "Tipo de Cambio Compra USD" ∧
    solve fuzzAvailable corpusPD "tipo cambio" = .err "no_match" "low_score" := by
  constructor
  · with_unfolding_all decide
  · with_unfolding_all decide

/-- C5: over a non-empty corpus, hard filtering retains exactly the records
matching every non-null query facet among currency, horizon and component
(a record with a null facet is removed by a non-null constraint, since
`facetsMatch` demands facet equality with `some v`); and when the filters
remove every record, `solve` returns the `NotFound` outcome
`filters_eliminated_all` — for every scoring function, i.e. without any
scoring. -/
theorem hard_filter_exact (fz : Fuzz) (corpus : List Record) (q : String)
    (hc : corpus ≠ []) :
    filterCands corpus (extractAttributes (normalize q)) =
      corpus.filter (facetsMatch (extractAttributes (normalize q))) ∧
    (filterCands corpus (extractAttributes (normalize q)) = [] →
      solve fz corpus q = .err "no_match" "filters_eliminated_all") := by
  refine ⟨filterCands_eq_filter corpus _, fun hf => ?_⟩
  have ht : (pySplitWs (normalize q).toList).dedup ≠ [] := by
    intro ht0
    have hsplit : pySplitWs (normalize q).toList = [] :=
      (List.dedup_eq_nil _).mp ht0
    have hqa := extract_allnone (normalize q) hsplit
    rw [hqa, filterCands_eq_filter] at hf
    rw [List.filter_eq_self.mpr (fun c _ => facetsMatch_allnone c)] at hf
    exact hc hf
  unfold solve
  rw [if_neg hc, if_neg ht, if_pos hf]

theorem hard_filter_exact_witness :
    filterCands corpusSoles (extractAttributes (normalize "credito dolares")) =
      corpusSoles.filter (facetsMatch (extractAttributes (normalize "credito dolares"))) ∧
    (filterCands corpusSoles (extractAttributes (normalize "credito dolares")) = [] →
      solve fuzzAvailable corpusSoles "credito dolares" =
        .err "no_match" "filters_eliminated_all") :=
  hard_filter_exact fuzzAvailable corpusSoles "credito dolares" (by decide)

/-- C6: filtering is monotone: starting from query attributes whose given
facet is unconstrained (null), additionally setting that facet to any
non-null value can only shrink or preserve the surviving candidate set,
for each of the three hard-filter facets. -/
theorem filter_monotone (corpus : List Record) (qa : Attrs) (v : String) :
    (qa.currency = none →
      filterCands corpus { qa with currency := some v } ⊆ filterCands corpus qa) ∧
    (qa.horizon = none →
      filterCands corpus { qa with horizon := some v } ⊆ filterCands corpus qa) ∧
    (qa.component = none →
      filterCands corpus { qa with component := some v } ⊆ filterCands corpus qa) := by
  rcases qa with ⟨cu, ho, co, sc⟩
  refine ⟨fun hq => ?_, fun hq => ?_, fun hq => ?_⟩ <;>
    cases hq <;>
    · intro c hcm
      rw [filterCands_eq_filter] at hcm ⊢
      rcases List.mem_filter.mp hcm with ⟨hmem, hmatch⟩
      refine List.mem_filter.mpr ⟨hmem, ?_⟩
      simp only [facetsMatch, Bool.and_eq_true] at hmatch ⊢
      tauto

theorem filter_monotone_witness :
    filterCands corpusPD ⟨some "usd", none, none, none⟩ ⊆
      filterCands corpusPD ⟨none, none, none, none⟩ ∧
    filterCands corpusPD ⟨some "usd", some "corto", none, none⟩ ⊆
      filterCands corpusPD ⟨some "usd", none, none, none⟩ :=
  ⟨(filter_monotone corpusPD ⟨none, none, none, none⟩ "usd").1 rfl,
   (filter_monotone corpusPD ⟨some "usd", none, none, none⟩ "corto").2.1 rfl⟩

/-- C7: normalization is idempotent — `normalize` (lowercase, NFKD/ASCII
accent folding, punctuation-to-space substitution, stopword dropping and
single-space rejoining) returns an already-normalized string unchanged. -/
theorem normalize_idempotent (x : String) :
    normalize (normalize x) = normalize x := by
  have hts := normTokens_good x.toList
  have key : normTokens (joinTokens (normTokens x.toList)) = normTokens x.toList := by
    generalize hg : normTokens x.toList = ts at hts ⊢
    unfold normTokens
    rw [normChars_fixed _ (joinTokens_chars _ (fun t ht c hc => (hts t ht).2.1 c hc))]
    rw [pySplitWs_joinTokens _ (fun t ht => ⟨(hts t ht).1,
      fun c hc => isWordChar_not_space c ((hts t ht).2.1 c hc).2.2⟩)]
    exact List.filter_eq_self.mpr
      (fun t ht => decide_eq_true ((hts t ht).2.2))
  unfold normalize
  congr 1
  rw [show (String.mk (joinTokens (normTokens x.toList))).toList =
    joinTokens (normTokens x.toList) from rfl]
  rw [key]

/-- C1: when at least two candidates clear the acceptance threshold, the
top tier is all accepted candidates within 5 points of the maximum adjusted
score; `solve` returns `Ambiguous` with reason
`mixed_attributes_in_top_results` exactly when that tier has more than one
distinct currency or more than one distinct component value, and otherwise
returns `Resolved` with a highest-scoring candidate (a same-bucket near-tie
is a confident single winner, never `Ambiguous`). -/
theorem resolution_policy (fz : Fuzz) (corpus : List Record) (q : String)
    (ht : qTokensOf q ≠ []) (hlen : 2 ≤ (acceptedOf fz corpus q).length) :
    (mixedTier (acceptedOf fz corpus q) →
      ∃ cs, solve fz corpus q = .ambiguous cs "mixed_attributes_in_top_results") ∧
    (¬ mixedTier (acceptedOf fz corpus q) →
      ∃ w, w ∈ acceptedOf fz corpus q ∧
        w.score = maxScoreOf (acceptedOf fz corpus q) ∧
        solve fz corpus q =
          .resolved w.series.codigoSerie (pyRound2 (w.score / 100))
            w.series.nameOriginal) := by
  have hAne : acceptedOf fz corpus q ≠ [] := by
    intro h
    rw [h] at hlen
    simp at hlen
  have hf : filterCands corpus (extractAttributes (normalize q)) ≠ [] := by
    intro h
    apply hAne
    unfold acceptedOf
    rw [h]
    rfl
  have hc : corpus ≠ [] := by
    intro h
    apply hf
    rw [h]
    exact filterCands_nil _
  have hsolve := solve_reaches fz corpus q hc ht hf
  have hperm : List.Perm (sortBy scoreGe (acceptedOf fz corpus q))
      (acceptedOf fz corpus q) := perm_sortBy _ _
  have hlen' : 2 ≤ (sortBy scoreGe (acceptedOf fz corpus q)).length := by
    rw [hperm.length_eq]
    exact hlen
  rcases hS : sortBy scoreGe (acceptedOf fz corpus q) with _ | ⟨top, rest⟩
  · rw [hS] at hlen'
    simp at hlen'
  have hrest : rest ≠ [] := by
    intro h
    rw [hS, h] at hlen'
    simp at hlen'
  have htopA : top ∈ acceptedOf fz corpus q := by
    apply hperm.mem_iff.mp
    rw [hS]
    exact List.mem_cons_self _ _
  have hmax_le : ∀ y ∈ acceptedOf fz corpus q, y.score ≤ top.score :=
    sortBy_scoreGe_head_max _ top rest hS
  have h80 : 80 ≤ top.score := mem_scoreCands_ge _ _ _ _ top htopA
  have htopmax : top.score = maxScoreOf (acceptedOf fz corpus q) :=
    le_antisymm (le_maxScoreOf _ top htopA)
      (maxScoreOf_le _ top.score (by linarith) hmax_le)
  have hpermS : List.Perm (top :: rest) (acceptedOf fz corpus q) := by
    rw [← hS]
    exact hperm
  have htier : List.Perm (codeTier top rest)
      (topTierOf (acceptedOf fz corpus q)) := by
    unfold codeTier topTierOf
    rw [← htopmax]
    exact hpermS.filter _
  have hcur :
      ((codeTier top rest).map (fun x => x.series.currency)).dedup.length =
      ((topTierOf (acceptedOf fz corpus q)).map
        (fun x => x.series.currency)).dedup.length :=
    ((htier.map _).dedup).length_eq
  have hcomp :
      ((codeTier top rest).map (fun x => x.series.component)).dedup.length =
      ((topTierOf (acceptedOf fz corpus q)).map
        (fun x => x.series.component)).dedup.length :=
    ((htier.map _).dedup).length_eq
  rw [hsolve]
  unfold rankAndResolve
  rw [hS]
  simp only [resolvePolicy]
  rw [if_neg hrest]
  constructor
  · intro hmix
    rw [if_pos]
    · exact ⟨_, rfl⟩
    · unfold mixedTier at hmix
      rw [← hcur, ← hcomp] at hmix
      exact hmix
  · intro hmix
    rw [if_neg]
    · exact ⟨top, htopA, htopmax, rfl⟩
    · unfold mixedTier at hmix
      rw [← hcur, ← hcomp] at hmix
      exact hmix

theorem resolution_policy_witness :
    qTokensOf "tipo cambio compra usd" ≠ [] ∧
    2 ≤ (acceptedOf fuzzAvailable corpusTwoAccepted "tipo cambio compra usd").length ∧
    (∃ w, w ∈ acceptedOf fuzzAvailable corpusTwoAccepted "tipo cambio compra usd" ∧
      w.score = maxScoreOf (acceptedOf fuzzAvailable corpusTwoAccepted "tipo cambio compra usd") ∧
      solve fuzzAvailable corpusTwoAccepted "tipo cambio compra usd" =
        .resolved w.series.codigoSerie (pyRound2 (w.score / 100))
          w.series.nameOriginal) :=
  ⟨by decide, by with_unfolding_all decide,
   (resolution_policy fuzzAvailable corpusTwoAccepted "tipo cambio compra usd"
     (by decide) (by with_unfolding_all decide)).2
     (by with_unfolding_all decide)⟩

/-- C4: every `Resolved` output of `solve` carries the code, name and
confidence of the winning accepted candidate — a candidate whose adjusted
score is the maximum adjusted score — with confidence equal to
`round(score/100, 2)` for that winning score, and that confidence lies in
[0, 1] (for any similarity function bounded by 100, as `rapidfuzz` ratios
are). -/
theorem resolved_confidence (fz : Fuzz) (corpus : List Record) (q : String)
    (hb : ∀ a b, fzScore fz a b ≤ 100) (cd : Option String) (cf : ℚ)
    (nm : String) (h : solve fz corpus q = .resolved cd cf nm) :
    ∃ w ∈ acceptedOf fz corpus q,
      cd = w.series.codigoSerie ∧ nm = w.series.nameOriginal ∧
      w.score = maxScoreOf (acceptedOf fz corpus q) ∧
      cf = pyRound2 (w.score / 100) ∧ 0 ≤ cf ∧ cf ≤ 1 := by
  unfold solve at h
  split at h
  · cases h
  · split at h
    · cases h
    · split at h
      · cases h
      · rw [show scoreCands fz (normalize q)
            ((pySplitWs (normalize q).toList).dedup)
            (filterCands corpus (extractAttributes (normalize q))) =
            acceptedOf fz corpus q from rfl] at h
        unfold rankAndResolve at h
        rcases hS : sortBy scoreGe (acceptedOf fz corpus q) with _ | ⟨top, rest⟩
        · rw [hS] at h
          simp only [resolvePolicy] at h
          cases h
        · rw [hS] at h
          simp only [resolvePolicy] at h
          have htopA : top ∈ acceptedOf fz corpus q := by
            apply (perm_sortBy scoreGe (acceptedOf fz corpus q)).mem_iff.mp
            rw [hS]
            exact List.mem_cons_self _ _
          have h80 : 80 ≤ top.score := mem_scoreCands_ge _ _ _ _ top htopA
          have h100 : top.score ≤ 100 := mem_scoreCands_le _ _ _ _ hb top htopA
          have hbounds := pyRound2_bounds top.score h80 h100
          have hmax : top.score = maxScoreOf (acceptedOf fz corpus q) :=
            le_antisymm (le_maxScoreOf _ top htopA)
              (maxScoreOf_le _ top.score (by linarith)
                (sortBy_scoreGe_head_max _ top rest hS))
          split at h
          · unfold resolvedOf at h
            injection h with h1 h2 h3
            exact ⟨top, htopA, h1.symm, h3.symm, hmax, h2.symm,
              h2 ▸ hbounds.1, h2 ▸ hbounds.2⟩
          · split at h
            · cases h
            · unfold resolvedOf at h
              injection h with h1 h2 h3
              exact ⟨top, htopA, h1.symm, h3.symm, hmax, h2.symm,
                h2 ▸ hbounds.1, h2 ▸ hbounds.2⟩

theorem resolved_confidence_witness :
    ∃ w ∈ acceptedOf constFuzz90 corpusTC "tipo cambio",
      some "TC1" = w.series.codigoSerie ∧ "Tipo de Cambio" = w.series.nameOriginal ∧
      w.score = maxScoreOf (acceptedOf constFuzz90 corpusTC "tipo cambio") ∧
      (9 / 10 : ℚ) = pyRound2 (w.score / 100) ∧ 0 ≤ (9 / 10 : ℚ) ∧ (9 / 10 : ℚ) ≤ 1 :=
  resolved_confidence constFuzz90 corpusTC "tipo cambio"
    (fun a b => by norm_num [fzScore, constFuzz90]) (some "TC1") (9 / 10)
    "Tipo de Cambio" (by with_unfolding_all decide)

/-- C3 counterexample: with the similarity library unavailable the base
score of the scoring loop is `0`, not the token-overlap ratio the spec
describes: on a one-record corpus whose record contains every query token
the spec formula gives 100 but the code scores 0 and `solve` fails with
`low_score` instead of resolving. -/
theorem noFuzz_base_score_not_overlap :
    fzScore none (normalize "tipo cambio") "tipo cambio" = 0 ∧
    specTokenOverlap (qTokensOf "tipo cambio")
      (toRecord 0 ⟨some "TC1", none, some "Tipo de Cambio"⟩).tokens = 100 ∧
    solve none corpusTC "tipo cambio" = .err "no_match" "low_score" := by
  refine ⟨rfl, ?_, ?_⟩
  · with_unfolding_all decide
  · with_unfolding_all decide

/-- C3 (amended): when the fuzzy-similarity library is unavailable `solve`
still degrades gracefully rather than failing, but not to a token-overlap
score: the base score is 0 for every candidate, so no candidate reaches the
acceptance threshold and every query ends in a `no_match` error outcome
(never a resolution, never a crash). -/
theorem solve_none_always_errors (corpus : List Record) (q : String) :
    ∃ reason, solve none corpus q = .err "no_match" reason := by
  by_cases hc : corpus = []
  · exact ⟨"empty_corpus", by unfold solve; rw [if_pos hc]⟩
  by_cases ht : qTokensOf q = []
  · exact ⟨"empty_query", by
      unfold qTokensOf at ht
      unfold solve
      rw [if_neg hc, if_pos ht]⟩
  by_cases hf : filterCands corpus (extractAttributes (normalize q)) = []
  · exact ⟨"filters_eliminated_all", by
      unfold qTokensOf at ht
      unfold solve
      rw [if_neg hc, if_neg ht, if_pos hf]⟩
  · refine ⟨"low_score", ?_⟩
    rw [solve_reaches none corpus q hc ht hf]
    unfold acceptedOf
    rw [scoreCands_none_eq_nil]
    rfl

end McpBcrp
